import Mathlib

/-!
Verification of the kaori repository core data structures: the bounded TTL
state store (`src/types/kaori.ts`, class `KaoriStateStore`), the circular
buffer queue (`src/features/queue.ts`, class `Queue`), and the cooldown map
(`src/features/cooldown.ts`, class `CooldownManager`).

The embedding is shallow: a JS `Map` is modelled as an association list in
insertion order (JS Map iteration order is insertion order, `Map.set` on an
existing key keeps its position, `Map.delete` removes the entry), `Date.now()`
is an explicit `now : Int` argument threaded through every time-dependent
operation, and the user-supplied `onExpire` callback is modelled by a log:
each operation additionally returns the list of `(key, value)` pairs it would
pass to `onExpire`, in call order.  JS truthiness tests are translated
exactly: `if (oldestKey)` on a `string | null` is false for both `null` and
the empty string, and `if (!expiry)` on a number is true for `0`.
-/

set_option maxHeartbeats 1000000

/-- Association list model of a JS `Map` with string keys: lookup of the first
entry with the given key (`Map.get`). -/
def msGet {β : Type _} : List (String × β) → String → Option β
  | [], _ => none
  | (k', v) :: rest, k => if k' = k then some v else msGet rest k

/-- Model of `Map.set`: update the first entry with the given key in place,
or append a fresh entry at the end (JS Map insertion-order semantics). -/
def msSet {β : Type _} : List (String × β) → String → β → List (String × β)
  | [], k, v => [(k, v)]
  | (k', v') :: rest, k, v =>
    if k' = k then (k', v) :: rest else (k', v') :: msSet rest k v

/-- Model of `Map.delete`: remove the first entry with the given key. -/
def msErase {β : Type _} : List (String × β) → String → List (String × β)
  | [], _ => []
  | (k', v') :: rest, k => if k' = k then rest else (k', v') :: msErase rest k

/-- Internal entry structure for state management (`StateEntry<T>` in
`src/types/kaori.ts`): cached value, absolute expiry time, last access time. -/
structure StateEntry (T : Type) where
  data : T
  expiresAt : Int
  lastAccessed : Int
deriving DecidableEq

/-- Options accepted by `defineState` (`StateOptions<T>`): `maxSize` and `ttl`
are optional; `onExpire` is modelled by the fired-callback log that each store
operation returns, so it is not a field here. -/
structure StateOptions where
  id : String
  maxSize : Option Int
  ttl : Option Int
deriving DecidableEq

/-- The state store (`class KaoriStateStore<T>`): resolved options plus the
backing `Map<string, StateEntry<T>>` in insertion order.  The cleanup interval
handle is represented by the explicit `cleanupTick` operation below. -/
structure KaoriStateStore (T : Type) where
  id : String
  maxSize : Int
  ttl : Int
  store : List (String × StateEntry T)
deriving DecidableEq

/-- The factory `defineState` / the `KaoriStateStore` constructor: fills in
defaults with `??` (nullish coalescing: only a missing option triggers the
default, a supplied `0` or negative value is kept) and performs no validation
of any kind. -/
def defineState (T : Type) (options : StateOptions) : KaoriStateStore T :=
  { id := options.id
    maxSize := options.maxSize.getD 1000
    ttl := options.ttl.getD 3600000
    store := [] }

/-- Method `delete(key)`: reads the entry, invokes `onExpire(key, entry.data)`
when present (logged), then removes the key; returns whether a removal
occurred. -/
def KaoriStateStore.delete {T : Type} (st : KaoriStateStore T) (key : String) :
    Bool × KaoriStateStore T × List (String × T) :=
  match msGet st.store key with
  | none => (false, st, [])
  | some e => (true, { st with store := msErase st.store key }, [(key, e.data)])

/-- Method `get(key)`: absent keys return `undefined`; an entry with
`Date.now() > entry.expiresAt` is removed via `delete` (firing `onExpire`) and
reported absent; otherwise `lastAccessed` is set to `now` and the value is
returned. -/
def KaoriStateStore.get {T : Type} (st : KaoriStateStore T) (now : Int) (key : String) :
    Option T × KaoriStateStore T × List (String × T) :=
  match msGet st.store key with
  | none => (none, st, [])
  | some e =>
    if now > e.expiresAt then
      ((none : Option T), (st.delete key).2.1, (st.delete key).2.2)
    else
      (some e.data,
        { st with store := msSet st.store key { e with lastAccessed := now } }, [])

/-- Method `has(key)`: like `get` but does not touch `lastAccessed`; expired
entries are removed as a side effect. -/
def KaoriStateStore.has {T : Type} (st : KaoriStateStore T) (now : Int) (key : String) :
    Bool × KaoriStateStore T × List (String × T) :=
  match msGet st.store key with
  | none => (false, st, [])
  | some e =>
    if now > e.expiresAt then
      (false, (st.delete key).2.1, (st.delete key).2.2)
    else
      (true, st, [])

/-- Loop body of `evictLRU`: scan in iteration order keeping the first entry
whose `lastAccessed` is strictly below the best so far (`oldestTime` starts at
`Infinity`, modelled by `none`). -/
def scanOldest {T : Type} :
    List (String × StateEntry T) → Option String → Option Int → Option String
  | [], acc, _ => acc
  | (k, e) :: rest, acc, best =>
    if (match best with
        | none => true
        | some t => decide (e.lastAccessed < t)) then
      scanOldest rest (some k) (some e.lastAccessed)
    else
      scanOldest rest acc best

/-- Method `evictLRU()`: find the first entry with minimal `lastAccessed` and
delete it.  The source guards the deletion with `if (oldestKey)`, a JS
truthiness test on a `string | null`, which is false both for `null` (empty
store) and for the empty-string key, so in the latter case nothing is
removed. -/
def KaoriStateStore.evictLRU {T : Type} (st : KaoriStateStore T) :
    KaoriStateStore T × List (String × T) :=
  match scanOldest st.store none none with
  | some oldestKey =>
    if oldestKey = "" then (st, [])
    else ((st.delete oldestKey).2.1, (st.delete oldestKey).2.2)
  | none => (st, [])

/-- Method `set(key, value, customTTL?)`: when `store.size >= maxSize` and the
key is not already present (raw `Map.has`, no expiry check), `evictLRU` runs
first; then the entry is written with `expiresAt = now + (customTTL ?? ttl)`
and `lastAccessed = now`. -/
def KaoriStateStore.set {T : Type} (st : KaoriStateStore T) (now : Int) (key : String)
    (value : T) (customTTL : Option Int) :
    KaoriStateStore T × List (String × T) :=
  let r :=
    if (st.store.length : Int) ≥ st.maxSize ∧ (msGet st.store key).isSome = false then
      st.evictLRU
    else (st, [])
  let ttl := customTTL.getD st.ttl
  ({ r.1 with store := msSet r.1.store key ⟨value, now + ttl, now⟩ }, r.2)

/-- Method `clear()`: fires `onExpire` for every current entry in iteration
order, then empties the map. -/
def KaoriStateStore.clear {T : Type} (st : KaoriStateStore T) :
    KaoriStateStore T × List (String × T) :=
  ({ st with store := [] }, st.store.map (fun p => (p.1, p.2.data)))

/-- Method `size()`. -/
def KaoriStateStore.size {T : Type} (st : KaoriStateStore T) : Nat :=
  st.store.length

/-- Method `keys()`: raw key snapshot, no expiry filtering. -/
def KaoriStateStore.keys {T : Type} (st : KaoriStateStore T) : List String :=
  st.store.map Prod.fst

/-- Method `values()`: raw value snapshot, no expiry filtering. -/
def KaoriStateStore.values {T : Type} (st : KaoriStateStore T) : List T :=
  st.store.map (fun p => p.2.data)

/-- Method `entries()`: raw `(key, value)` snapshot, no expiry filtering. -/
def KaoriStateStore.entriesList {T : Type} (st : KaoriStateStore T) : List (String × T) :=
  st.store.map (fun p => (p.1, p.2.data))

/-- The `for (const key of expiredKeys) this.delete(key)` loop of the cleanup
interval, at the level of the backing list. -/
def foldDeleteRaw {T : Type} :
    List (String × StateEntry T) → List String →
      List (String × StateEntry T) × List (String × T)
  | s, [] => (s, [])
  | s, k :: ks =>
    match msGet s k with
    | none => foldDeleteRaw s ks
    | some e =>
      ((foldDeleteRaw (msErase s k) ks).1,
        (k, e.data) :: (foldDeleteRaw (msErase s k) ks).2)

/-- One firing of the periodic cleanup interval installed by `startCleanup`:
collect every key with `now > expiresAt` in iteration order, then `delete`
each collected key (firing `onExpire`). -/
def KaoriStateStore.cleanupTick {T : Type} (st : KaoriStateStore T) (now : Int) :
    KaoriStateStore T × List (String × T) :=
  let expiredKeys := (st.store.filter (fun p => now > p.2.expiresAt)).map Prod.fst
  let r := foldDeleteRaw st.store expiredKeys
  ({ st with store := r.1 }, r.2)

/-- Method `destroy()`: cancels the cleanup interval (no residue in this
model) and performs `clear()`. -/
def KaoriStateStore.destroy {T : Type} (st : KaoriStateStore T) :
    KaoriStateStore T × List (String × T) :=
  st.clear

/-- Variant of `delete` exposing the control flow around a throwing `onExpire`
callback: the callback runs before `store.delete(key)`, so an exception
(`Except.error`) propagates with the map unchanged. -/
def KaoriStateStore.deleteWithCallback {T ε : Type} (st : KaoriStateStore T)
    (onExpire : String → T → Except ε Unit) (key : String) :
    Except ε Bool × KaoriStateStore T :=
  match msGet st.store key with
  | none => (Except.ok false, st)
  | some e =>
    match onExpire key e.data with
    | Except.error ex => (Except.error ex, st)
    | Except.ok _ => (Except.ok true, { st with store := msErase st.store key })

/-- Well-formedness of the backing map: keys are pairwise distinct, which the
JS `Map` guarantees by construction. -/
def storeWF {T : Type} (s : List (String × StateEntry T)) : Prop :=
  (s.map Prod.fst).Nodup

/-- Well-formedness of a state store. -/
def KaoriStateStore.wf {T : Type} (st : KaoriStateStore T) : Prop :=
  storeWF st.store

instance {T : Type} (s : List (String × StateEntry T)) : Decidable (storeWF s) := by
  unfold storeWF; infer_instance

instance {T : Type} (st : KaoriStateStore T) : Decidable st.wf := by
  unfold KaoriStateStore.wf; infer_instance

/-- Entries of `before` whose key is gone in `after`: the logical removals an
operation performed, with the values they held before. -/
def removedEntries {T : Type} (before after : List (String × StateEntry T)) :
    List (String × T) :=
  (before.filter (fun p => (msGet after p.1).isNone)).map (fun p => (p.1, p.2.data))

/-- The circular-buffer queue (`class Queue<T>` in `src/features/queue.ts`):
backing array of `capacity` slots (empty slots hold `undefined`, modelled by
`none`), `head`/`tail` indices modulo `capacity`, live element `count`. -/
structure Queue (α : Type) where
  elements : List (Option α)
  head : Nat
  tail : Nat
  count : Nat
  capacity : Nat
deriving DecidableEq

/-- The `Queue` constructor: `capacity = Math.max(1, initialCapacity)` and a
fresh backing array of that length. -/
def mkQueue (α : Type) (initialCapacity : Nat) : Queue α :=
  { elements := List.replicate (max 1 initialCapacity) none
    head := 0
    tail := 0
    count := 0
    capacity := max 1 initialCapacity }

/-- The `queue<T>()` factory: a queue with the default initial capacity 16. -/
def queueDefault (α : Type) : Queue α :=
  mkQueue α 16

/-- Private method `resize(newCapacity)`: copy the `count` live elements into
a fresh backing array starting at index 0, reset `head` to 0 and `tail` to
`count`. -/
def Queue.resize {α : Type} (q : Queue α) (newCapacity : Nat) : Queue α :=
  { elements :=
      (List.range q.count).foldl
        (fun acc i => acc.set i (q.elements.getD ((q.head + i) % q.capacity) none))
        (List.replicate newCapacity none)
    head := 0
    tail := q.count
    count := q.count
    capacity := newCapacity }

/-- Private method `grow()`: double the capacity. -/
def Queue.grow {α : Type} (q : Queue α) : Queue α :=
  q.resize (q.capacity * 2)

/-- Private method `shrink()`: halve the capacity (`Math.floor(capacity / 2)`,
which is Nat division). -/
def Queue.shrink {α : Type} (q : Queue α) : Queue α :=
  q.resize (q.capacity / 2)

/-- Method `enqueue(element)`: grow first when full, then write at `tail`,
advance `tail` modulo capacity, increment `count`. -/
def Queue.enqueue {α : Type} (q : Queue α) (element : α) : Queue α :=
  let q := if q.count = q.capacity then q.grow else q
  { q with
    elements := q.elements.set q.tail (some element)
    tail := (q.tail + 1) % q.capacity
    count := q.count + 1 }

/-- Method `dequeue()`: `undefined` when empty; otherwise read the slot at
`head`, clear it, advance `head` modulo capacity, decrement `count`, then
shrink when `count > 0 && count < capacity / 4 && capacity > 16` (the JS
comparison `count < capacity / 4` uses exact real division, which over
naturals is `4 * count < capacity`). -/
def Queue.dequeue {α : Type} (q : Queue α) : Option α × Queue α :=
  if q.count = 0 then (none, q)
  else
    let element := q.elements.getD q.head none
    let q1 : Queue α :=
      { q with
        elements := q.elements.set q.head none
        head := (q.head + 1) % q.capacity
        count := q.count - 1 }
    let q2 :=
      if 0 < q1.count ∧ 4 * q1.count < q1.capacity ∧ 16 < q1.capacity then q1.shrink
      else q1
    (element, q2)

/-- Method `peek()`. -/
def Queue.peek {α : Type} (q : Queue α) : Option α :=
  if q.count = 0 then none else q.elements.getD q.head none

/-- Method `isEmpty()`. -/
def Queue.isEmpty {α : Type} (q : Queue α) : Bool :=
  q.count = 0

/-- Getter `size`. -/
def Queue.size {α : Type} (q : Queue α) : Nat :=
  q.count

/-- Method `clear()`: fresh backing array of the current capacity, indices and
count reset. -/
def Queue.clear {α : Type} (q : Queue α) : Queue α :=
  { q with
    elements := List.replicate q.capacity none
    head := 0
    tail := 0
    count := 0 }

/-- Method `toArray()` (also the iterator): the `count` live slots starting at
`head`, in FIFO order.  The JS source casts each slot with `as T`, a no-op at
runtime, so the model keeps the raw `Option` slot values. -/
def Queue.toList {α : Type} (q : Queue α) : List (Option α) :=
  (List.range q.count).map (fun i => q.elements.getD ((q.head + i) % q.capacity) none)

/-- Representation invariant of the circular buffer, maintained by every
public operation. -/
def Queue.wf {α : Type} (q : Queue α) : Prop :=
  q.elements.length = q.capacity ∧ 0 < q.capacity ∧ q.count ≤ q.capacity ∧
    q.head < q.capacity ∧ q.tail = (q.head + q.count) % q.capacity

instance {α : Type} (q : Queue α) : Decidable q.wf := by
  unfold Queue.wf; infer_instance

/-- A single queue operation, for stating properties of arbitrary interleaved
enqueue/dequeue sequences. -/
inductive QOp (α : Type) where
  | enq (x : α)
  | deq
deriving DecidableEq

/-- Run a sequence of operations against the circular buffer, collecting every
value returned by `dequeue` in order. -/
def runQueue {α : Type} : Queue α → List (QOp α) → List (Option α) × Queue α
  | q, [] => ([], q)
  | q, QOp.enq x :: ops => runQueue (q.enqueue x) ops
  | q, QOp.deq :: ops =>
    ((q.dequeue).1 :: (runQueue (q.dequeue).2 ops).1, (runQueue (q.dequeue).2 ops).2)

/-- Run the same operations against the obvious FIFO reference model: a plain
list in insertion order. -/
def runModel {α : Type} : List α → List (QOp α) → List (Option α) × List α
  | l, [] => ([], l)
  | l, QOp.enq x :: ops => runModel (l ++ [x]) ops
  | [], QOp.deq :: ops => (none :: (runModel [] ops).1, (runModel [] ops).2)
  | x :: xs, QOp.deq :: ops => (some x :: (runModel xs ops).1, (runModel xs ops).2)

/-- The cooldown map (`class CooldownManager` in `src/features/cooldown.ts`):
key to absolute expiry timestamp, plus the log of one-shot removals scheduled
with `setTimeout` (fire time, key) in scheduling order. -/
structure CooldownManager where
  cooldowns : List (String × Int)
  timers : List (Int × String)
deriving DecidableEq

/-- The `cooldown()` factory: an empty manager. -/
def cooldownCreate : CooldownManager :=
  { cooldowns := [], timers := [] }

/-- Method `hasCooldown(key)`: the source tests `if (!expiry)`, a JS
truthiness test on a number, which is true both for a missing entry and for a
stored expiry of exactly `0` (in neither case is anything deleted); an entry
with `Date.now() > expiry` is deleted and reported absent; otherwise the
cooldown is active. -/
def CooldownManager.hasCooldown (m : CooldownManager) (now : Int) (key : String) :
    Bool × CooldownManager :=
  match msGet m.cooldowns key with
  | none => (false, m)
  | some expiry =>
    if expiry = 0 then (false, m)
    else if now > expiry then (false, { m with cooldowns := msErase m.cooldowns key })
    else (true, m)

/-- Method `setCooldown(key, durationMs)`: refuse when `hasCooldown` reports
an active cooldown (keeping any lazy removal it performed); otherwise store
`expiresAt = now + durationMs`, schedule the one-shot removal `durationMs`
from now, and return `true`. -/
def CooldownManager.setCooldown (m : CooldownManager) (now : Int) (key : String)
    (durationMs : Int) : Bool × CooldownManager :=
  let h := m.hasCooldown now key
  if h.1 then (false, h.2)
  else
    (true,
      { h.2 with
        cooldowns := msSet h.2.cooldowns key (now + durationMs)
        timers := h.2.timers ++ [(now + durationMs, key)] })

/-- Method `getRemaining(key)`: `if (!expiry)` again treats a stored `0` like
a missing entry; otherwise `max(expiresAt - now, 0)`. -/
def CooldownManager.getRemaining (m : CooldownManager) (now : Int) (key : String) : Int :=
  match msGet m.cooldowns key with
  | none => 0
  | some expiry =>
    if expiry = 0 then 0
    else if expiry - now > 0 then expiry - now else 0

/-- Method `reset(key)`: unconditional `Map.delete`; pending timers are not
cancelled. -/
def CooldownManager.reset (m : CooldownManager) (key : String) : Bool × CooldownManager :=
  ((msGet m.cooldowns key).isSome, { m with cooldowns := msErase m.cooldowns key })

/-- Method `clear()`: empty the map; pending timers are not cancelled. -/
def CooldownManager.clear (m : CooldownManager) : CooldownManager :=
  { m with cooldowns := [] }

/-- Method `getKeys()`: raw key snapshot, not expiry-filtered. -/
def CooldownManager.getKeys (m : CooldownManager) : List String :=
  m.cooldowns.map Prod.fst

/-- Method `size()`: raw entry count, not expiry-filtered. -/
def CooldownManager.size (m : CooldownManager) : Nat :=
  m.cooldowns.length

/-- A scheduled one-shot removal firing later: `() => this.cooldowns.delete(key)`
(a no-op when the key is already gone). -/
def CooldownManager.fireTimer (m : CooldownManager) (key : String) : CooldownManager :=
  { m with cooldowns := msErase m.cooldowns key }

theorem msGet_msSet_self {β : Type _} (s : List (String × β)) (k : String) (v : β) :
    msGet (msSet s k v) k = some v := by
  induction s with
  | nil => simp [msSet, msGet]
  | cons p rest ih =>
    obtain ⟨k0, v0⟩ := p
    by_cases hk : k0 = k
    · simp [msSet, msGet, hk]
    · simp [msSet, msGet, hk, ih]

theorem msGet_msSet_ne {β : Type _} (s : List (String × β)) (k k' : String) (v : β)
    (h : k' ≠ k) : msGet (msSet s k v) k' = msGet s k' := by
  have h2 : ¬ k = k' := fun hh => h hh.symm
  induction s with
  | nil => simp [msSet, msGet, h2]
  | cons p rest ih =>
    obtain ⟨k0, v0⟩ := p
    by_cases hk : k0 = k
    · simp [msSet, msGet, hk, h2]
    · simp [msSet, msGet, hk, ih]

theorem msGet_msErase_ne {β : Type _} (s : List (String × β)) (k k' : String)
    (h : k' ≠ k) : msGet (msErase s k) k' = msGet s k' := by
  have h2 : ¬ k = k' := fun hh => h hh.symm
  induction s with
  | nil => simp [msErase]
  | cons p rest ih =>
    obtain ⟨k0, v0⟩ := p
    by_cases hk : k0 = k
    · simp [msErase, msGet, hk, h2]
    · simp [msErase, msGet, hk, ih]

theorem msErase_sublist {β : Type _} (s : List (String × β)) (k : String) :
    (msErase s k).Sublist s := by
  induction s with
  | nil => simp [msErase]
  | cons p rest ih =>
    obtain ⟨k0, v0⟩ := p
    by_cases hk : k0 = k
    · simp [msErase, hk]
    · simpa [msErase, hk] using ih.cons₂ (k0, v0)

theorem msGet_eq_none_iff {β : Type _} (s : List (String × β)) (k : String) :
    msGet s k = none ↔ k ∉ s.map Prod.fst := by
  induction s with
  | nil => simp [msGet]
  | cons p rest ih =>
    obtain ⟨k0, v0⟩ := p
    by_cases hk : k0 = k
    · simp [msGet, hk]
    · have h2 : ¬ k = k0 := fun hh => hk hh.symm
      simp [msGet, hk, ih, h2]

theorem msGet_isSome_of_mem {β : Type _} {s : List (String × β)} {k : String} {v : β}
    (h : (k, v) ∈ s) : (msGet s k).isSome := by
  induction s with
  | nil => simp at h
  | cons p rest ih =>
    obtain ⟨k0, v0⟩ := p
    by_cases hk : k0 = k
    · simp [msGet, hk]
    · rcases List.mem_cons.mp h with h1 | h1
      · exact absurd (congrArg Prod.fst h1).symm hk
      · simpa [msGet, hk] using ih h1

theorem mem_of_msGet {β : Type _} {s : List (String × β)} {k : String} {v : β}
    (h : msGet s k = some v) : (k, v) ∈ s := by
  induction s with
  | nil => simp [msGet] at h
  | cons p rest ih =>
    obtain ⟨k0, v0⟩ := p
    by_cases hk : k0 = k
    · rw [msGet, if_pos hk] at h
      have hv : v0 = v := Option.some.inj h
      rw [hk, hv]
      exact List.mem_cons_self _ _
    · rw [msGet, if_neg hk] at h
      exact List.mem_cons_of_mem _ (ih h)

theorem msGet_of_mem_nodup {β : Type _} {s : List (String × β)} {k : String} {v : β}
    (hnd : (s.map Prod.fst).Nodup) (h : (k, v) ∈ s) : msGet s k = some v := by
  induction s with
  | nil => simp at h
  | cons p rest ih =>
    obtain ⟨k0, v0⟩ := p
    simp only [List.map_cons, List.nodup_cons] at hnd
    rcases List.mem_cons.mp h with h1 | h1
    · cases h1
      simp [msGet]
    · have hk : ¬ k0 = k := by
        intro hh
        rw [hh] at hnd
        exact hnd.1 (List.mem_map.mpr ⟨(k, v), h1, rfl⟩)
      simpa [msGet, hk] using ih hnd.2 h1

theorem nodup_mem_unique {β : Type _} {s : List (String × β)} {k : String} {a b : β}
    (hnd : (s.map Prod.fst).Nodup) (ha : (k, a) ∈ s) (hb : (k, b) ∈ s) : a = b := by
  have h1 := msGet_of_mem_nodup hnd ha
  have h2 := msGet_of_mem_nodup hnd hb
  rw [h1] at h2
  exact Option.some.inj h2

theorem msGet_msErase_self {β : Type _} {s : List (String × β)} {k : String}
    (hnd : (s.map Prod.fst).Nodup) : msGet (msErase s k) k = none := by
  induction s with
  | nil => simp [msErase, msGet]
  | cons p rest ih =>
    obtain ⟨k0, v0⟩ := p
    simp only [List.map_cons, List.nodup_cons] at hnd
    by_cases hk : k0 = k
    · rw [msErase, if_pos hk]
      rw [hk] at hnd
      exact (msGet_eq_none_iff rest k).mpr (fun hmem => hnd.1 hmem)
    · simpa [msErase, msGet, hk] using ih hnd.2

theorem msSet_eq_append {β : Type _} {s : List (String × β)} {k : String} (v : β)
    (h : msGet s k = none) : msSet s k v = s ++ [(k, v)] := by
  induction s with
  | nil => simp [msSet]
  | cons p rest ih =>
    obtain ⟨k0, v0⟩ := p
    by_cases hk : k0 = k
    · rw [msGet, if_pos hk] at h
      exact absurd h (by simp)
    · rw [msGet, if_neg hk] at h
      simp [msSet, hk, ih h]

theorem map_fst_msSet_of_isSome {β : Type _} {s : List (String × β)} {k : String} (v : β)
    (h : (msGet s k).isSome) : (msSet s k v).map Prod.fst = s.map Prod.fst := by
  induction s with
  | nil => simp [msGet] at h
  | cons p rest ih =>
    obtain ⟨k0, v0⟩ := p
    by_cases hk : k0 = k
    · simp [msSet, hk]
    · rw [msGet, if_neg hk] at h
      simp [msSet, hk, ih h]

theorem nodup_msSet {β : Type _} {s : List (String × β)} (k : String) (v : β)
    (hnd : (s.map Prod.fst).Nodup) : ((msSet s k v).map Prod.fst).Nodup := by
  cases h : msGet s k with
  | some w =>
    rw [map_fst_msSet_of_isSome v (by simp [h])]
    exact hnd
  | none =>
    rw [msSet_eq_append v h]
    have hk : k ∉ s.map Prod.fst := (msGet_eq_none_iff s k).mp h
    simp only [List.map_append, List.map_cons, List.map_nil]
    exact List.Nodup.append hnd (List.nodup_singleton k)
      (by simpa [List.disjoint_singleton] using hk)

theorem nodup_msErase {β : Type _} {s : List (String × β)} (k : String)
    (hnd : (s.map Prod.fst).Nodup) : ((msErase s k).map Prod.fst).Nodup :=
  ((msErase_sublist s k).map Prod.fst).nodup hnd

theorem mem_msSet {β : Type _} {s : List (String × β)} {k : String} {v : β}
    {p : String × β} (h : p ∈ msSet s k v) : p = (k, v) ∨ p ∈ s := by
  induction s with
  | nil => simpa [msSet] using h
  | cons q rest ih =>
    obtain ⟨k0, v0⟩ := q
    by_cases hk : k0 = k
    · rcases List.mem_cons.mp (by rw [msSet, if_pos hk] at h; exact h) with h1 | h1
      · exact Or.inl (by rw [h1, hk])
      · exact Or.inr (List.mem_cons_of_mem _ h1)
    · rcases List.mem_cons.mp (by rw [msSet, if_neg hk] at h; exact h) with h1 | h1
      · exact Or.inr (by rw [h1]; exact List.mem_cons_self _ _)
      · rcases ih h1 with h2 | h2
        · exact Or.inl h2
        · exact Or.inr (List.mem_cons_of_mem _ h2)

theorem mem_msSet_of_ne {β : Type _} {s : List (String × β)} {k : String} (v : β)
    {p : String × β} (h : p ∈ s) (hne : p.1 ≠ k) : p ∈ msSet s k v := by
  induction s with
  | nil => simp at h
  | cons q rest ih =>
    obtain ⟨k0, v0⟩ := q
    by_cases hk : k0 = k
    · rcases List.mem_cons.mp h with h1 | h1
      · exact absurd ((congrArg Prod.fst h1).trans hk) hne
      · rw [msSet, if_pos hk]
        exact List.mem_cons_of_mem _ h1
    · rcases List.mem_cons.mp h with h1 | h1
      · rw [msSet, if_neg hk, h1]
        exact List.mem_cons_self _ _
      · rw [msSet, if_neg hk]
        exact List.mem_cons_of_mem _ (ih h1)

theorem msGet_append_left {β : Type _} {s : List (String × β)} {k : String} {v : β}
    (t : List (String × β)) (h : msGet s k = some v) : msGet (s ++ t) k = some v := by
  induction s with
  | nil => simp [msGet] at h
  | cons p rest ih =>
    obtain ⟨k0, v0⟩ := p
    by_cases hk : k0 = k
    · rw [msGet, if_pos hk] at h
      simpa [msGet, hk] using h
    · rw [msGet, if_neg hk] at h
      simpa [msGet, hk] using ih h

theorem msGet_append_none {β : Type _} {s : List (String × β)} {k : String}
    (t : List (String × β)) (h : msGet s k = none) : msGet (s ++ t) k = msGet t k := by
  induction s with
  | nil => simp
  | cons p rest ih =>
    obtain ⟨k0, v0⟩ := p
    by_cases hk : k0 = k
    · rw [msGet, if_pos hk] at h
      exact absurd h (by simp)
    · rw [msGet, if_neg hk] at h
      simpa [msGet, hk] using ih h

/-- C1: the claim states that a `set` of a fresh key on a store at capacity
always removes exactly one entry with minimal `lastAccessed` first.  The code
violates this: `evictLRU` guards the deletion with `if (oldestKey)`, a JS
truthiness test that is false for the empty-string key, so when the
least-recently-used entry has key `""` nothing is removed and the fresh key is
inserted anyway.  Concretely: `maxSize = 1`, the single entry has key `""`,
and `set("a", 2)` removes nothing (empty `onExpire` log) while the size grows
to 2. -/
theorem evictLRU_skips_empty_string_key :
    (let st0 := defineState Nat (StateOptions.mk "s" (some 1) (some 1000))
     let st1 := (st0.set 0 "" 1 none).1
     st1.store.length = 1 ∧ (st1.maxSize : Int) = 1 ∧ msGet st1.store "a" = none ∧
       (st1.set 1 "a" 2 none).2 = [] ∧
       (st1.set 1 "a" 2 none).1.store.length = 2 ∧
       msGet (st1.set 1 "a" 2 none).1.store "" = some (StateEntry.mk 1 1000 0)) := by
  decide

/-- C2: the claim states `entries.size ≤ maxSize` after every operation.  The
same `if (oldestKey)` truthiness bug lets the store exceed `maxSize`: with
`maxSize = 1` and the sole (least-recently-used) entry keyed `""`, inserting a
second distinct key skips eviction and leaves 2 entries, so the bound fails
after a plain `set` of a new key. -/
theorem size_bound_exceeded_via_empty_string_key :
    (let st0 := defineState Nat (StateOptions.mk "st2" (some 1) (some 50))
     let st2 := (((st0.set 0 "" 5 none).1).set 1 "b" 6 none).1
     (st2.store.length : Int) > st2.maxSize ∧ st2.maxSize = 1 ∧
       st2.keys = ["", "b"]) := by
  decide

/-- C4 counterexample: an entry set at `t0 = 0` with TTL `T = 5` is still
reported present by both `get` and `has` at check time `5 = t0 + T`, while the
claim demands absence at every check time `≥ t0 + T` (the code expires only
when `now > expiresAt`, strictly). -/
theorem ttl_entry_present_at_exact_expiry :
    (let st1 := ((defineState Nat (StateOptions.mk "c4" none none)).set 0 "k" 7 (some 5)).1
     (st1.get 5 "k").1 = some 7 ∧ (st1.has 5 "k").1 = true ∧
       (0 : Int) + 5 ≤ 5 ∧ (st1.get 6 "k").1 = none) := by
  decide

/-- C5 counterexample: with `maxSize = N = 1` the store holds only `k`
itself, so the side condition of the claim (every other entry strictly older)
is vacuously true, yet the entry refreshed by `get` is exactly the one the
subsequent insertion evicts: after `set("a")`, `get("a")` (successful) and
`set("b")`, key `"a"` is gone. -/
theorem refreshed_key_evicted_when_sole_entry :
    (let st0 := defineState Nat (StateOptions.mk "c5" (some 1) (some 100))
     let st1 := (st0.set 0 "a" 37 none).1
     let st2 := (st1.get 5 "a").2.1
     st1.store.length = 1 ∧ st1.maxSize = 1 ∧ (st1.get 5 "a").1 = some 37 ∧
       msGet ((st2.set 5 "b" 99 none).1).store "a" = none ∧
       (msGet ((st2.set 5 "b" 99 none).1).store "b").isSome = true) := by
  decide

/-- C6 counterexample: the constructor performs no validation whatsoever, so a
configuration with `maxSize = 0` and `ttl = -5` is accepted silently: the
store is created with exactly those values (there is no error path anywhere in
the constructor or in `defineState`) and its first `set` succeeds, inserting
an entry that is born expired. -/
theorem defineState_accepts_invalid_config :
    (let st := defineState Nat (StateOptions.mk "bad" (some 0) (some (-5)))
     st.maxSize = 0 ∧ st.ttl = -5 ∧ st.store = [] ∧
       (st.set 10 "a" 1 none).1.store = [("a", StateEntry.mk 1 5 10)]) := by
  decide

/-- C6 (amended): `defineState` / the constructor accept every configuration:
the resolved options are exactly the supplied ones with `??`-defaults filling
only absent fields (a supplied `maxSize ≤ 0` or negative `ttl` is stored
verbatim), and the store starts empty; no configuration is rejected. -/
theorem defineState_no_validation (T : Type) (options : StateOptions) :
    (defineState T options).maxSize = options.maxSize.getD 1000 ∧
    (defineState T options).ttl = options.ttl.getD 3600000 ∧
    (defineState T options).id = options.id ∧
    (defineState T options).store = [] :=
  ⟨rfl, rfl, rfl, rfl⟩

/-- C8 counterexample: a queue created with initial capacity 17 (legal:
`max(1, 17)`) holding 5 elements shrinks on dequeue — `4 > 0`,
`4 < 17 / 4 = 4.25`, `17 > 16` all hold — to `Math.floor(17 / 2) = 8 < 16`,
refuting the claim that the resulting capacity is always at least 16. -/
theorem queue_shrink_below_sixteen :
    (let q5 := (((((mkQueue Nat 17).enqueue 1).enqueue 2).enqueue 3).enqueue 4).enqueue 5
     q5.capacity = 17 ∧ (q5.dequeue).1 = some 1 ∧ (q5.dequeue).2.capacity = 8 ∧
       (q5.dequeue).2.capacity < 16 ∧
       (q5.dequeue).2.toList = [some 2, some 3, some 4, some 5]) := by
  decide

/-- C9 counterexample: after `setCooldown("k", 0)` at clock 0 the map holds
the entry `("k", 0)`, an active cooldown by the claim (its expiry `0` is not
in the past at `now = 0`, and `hasCooldown` is specified true when
`now ≤ expiresAt`); yet a second `setCooldown` returns `true` and overwrites
it, because `hasCooldown` tests `if (!expiry)` — a JS falsiness test that
treats the stored number `0` like a missing entry. -/
theorem setCooldown_zero_expiry_not_refused :
    (let m1 := (cooldownCreate.setCooldown 0 "k" 0).2
     msGet m1.cooldowns "k" = some 0 ∧ ¬ (0 : Int) > 0 ∧
       (m1.setCooldown 0 "k" 5).1 = true ∧
       msGet (m1.setCooldown 0 "k" 5).2.cooldowns "k" = some 5) := by
  decide

/-- C10: `delete` reads the entry and invokes `onExpire` before
`store.delete(key)`, so a throwing callback propagates as an exception and the
entry is still in the map afterwards: the store (hence `size()` and the raw
accessors) is unchanged. -/
theorem delete_not_atomic_when_onExpire_throws {T ε : Type} (st : KaoriStateStore T)
    (onExpire : String → T → Except ε Unit) (key : String) (e : StateEntry T) (ex : ε)
    (hk : msGet st.store key = some e)
    (hthrow : onExpire key e.data = Except.error ex) :
    st.deleteWithCallback onExpire key = (Except.error ex, st) ∧
      msGet (st.deleteWithCallback onExpire key).2.store key = some e ∧
      (st.deleteWithCallback onExpire key).2.size = st.size := by
  have hres : st.deleteWithCallback onExpire key = (Except.error ex, st) := by
    simp [KaoriStateStore.deleteWithCallback, hk, hthrow]
  exact ⟨hres, by rw [hres]; exact hk, by rw [hres]⟩

/-- Witness for the C10 theorem at a concrete store and a concretely throwing
callback. -/
theorem delete_not_atomic_when_onExpire_throws_witness :
    (let st : KaoriStateStore Nat := KaoriStateStore.mk "w" 10 100 [("k", StateEntry.mk 3 50 0)]
     let cb : String → Nat → Except String Unit := fun _ _ => Except.error "boom"
     st.deleteWithCallback cb "k" = (Except.error "boom", st) ∧
       msGet (st.deleteWithCallback cb "k").2.store "k" = some (StateEntry.mk 3 50 0) ∧
       (st.deleteWithCallback cb "k").2.size = st.size) :=
  delete_not_atomic_when_onExpire_throws _ _ "k" _ "boom" (by decide) rfl

/-- C9 (amended): `setCooldown` returns `false` and leaves the manager
untouched when the key is under an active cooldown with a nonzero stored
expiry (`hasCooldown` treats a stored expiry of exactly `0` like a missing
entry via its `if (!expiry)` falsiness test); in every other case it stores
`expiresAt = now + durationMs`, appends the one-shot removal scheduled at
`now + durationMs` to the timer log, leaves unrelated keys untouched, and
returns `true`. -/
theorem setCooldown_refuses_active_else_records (m : CooldownManager) (now : Int)
    (key : String) (durationMs : Int) :
    (∀ e, msGet m.cooldowns key = some e → e ≠ 0 → now ≤ e →
        m.setCooldown now key durationMs = (false, m)) ∧
    ((∀ e, msGet m.cooldowns key = some e → e = 0 ∨ e < now) →
        (m.setCooldown now key durationMs).1 = true ∧
        msGet (m.setCooldown now key durationMs).2.cooldowns key = some (now + durationMs) ∧
        (m.setCooldown now key durationMs).2.timers = m.timers ++ [(now + durationMs, key)] ∧
        ∀ k2, k2 ≠ key →
          msGet (m.setCooldown now key durationMs).2.cooldowns k2 = msGet m.cooldowns k2) := by
  constructor
  · intro e he hne hnow
    have hhas : m.hasCooldown now key = (true, m) := by
      unfold CooldownManager.hasCooldown
      rw [he]
      simp [hne, not_lt.mpr hnow]
    simp [CooldownManager.setCooldown, hhas]
  · intro hcond
    cases he : msGet m.cooldowns key with
    | none =>
      have hhas : m.hasCooldown now key = (false, m) := by
        unfold CooldownManager.hasCooldown
        rw [he]
      refine ⟨?_, ?_, ?_, ?_⟩ <;>
        simp [CooldownManager.setCooldown, hhas, msGet_msSet_self]
      intro k2 hk2
      exact msGet_msSet_ne _ _ _ _ hk2
    | some e =>
      by_cases h0 : e = 0
      · have hhas : m.hasCooldown now key = (false, m) := by
          unfold CooldownManager.hasCooldown
          rw [he]
          simp [h0]
        refine ⟨?_, ?_, ?_, ?_⟩ <;>
          simp [CooldownManager.setCooldown, hhas, msGet_msSet_self]
        intro k2 hk2
        exact msGet_msSet_ne _ _ _ _ hk2
      · have hlt : e < now := by
          rcases hcond e he with h | h
          · exact absurd h h0
          · exact h
        have hhas : m.hasCooldown now key =
            (false, { m with cooldowns := msErase m.cooldowns key }) := by
          unfold CooldownManager.hasCooldown
          rw [he]
          simp [h0, hlt]
        refine ⟨?_, ?_, ?_, ?_⟩ <;>
          simp [CooldownManager.setCooldown, hhas, msGet_msSet_self]
        intro k2 hk2
        rw [msGet_msSet_ne _ _ _ _ hk2]
        exact msGet_msErase_ne _ _ _ hk2

/-- Witness for the C9 amended theorem: a fresh cooldown is recorded on an
empty manager (with timers and unrelated keys behaving as stated), and a
second attempt against the now-active entry is refused without effect. -/
theorem setCooldown_refuses_active_else_records_witness :
    ((cooldownCreate.setCooldown 3 "u" 7).1 = true ∧
      msGet (cooldownCreate.setCooldown 3 "u" 7).2.cooldowns "u" = some 10 ∧
      (cooldownCreate.setCooldown 3 "u" 7).2.timers = cooldownCreate.timers ++ [(10, "u")] ∧
      msGet (cooldownCreate.setCooldown 3 "u" 7).2.cooldowns "x" = msGet cooldownCreate.cooldowns "x") ∧
    (CooldownManager.mk [("u", 10)] []).setCooldown 4 "u" 7 =
      (false, CooldownManager.mk [("u", 10)] []) := by
  constructor
  · have h := (setCooldown_refuses_active_else_records cooldownCreate 3 "u" 7).2
      (fun e he => by simp [cooldownCreate, msGet] at he)
    exact ⟨h.1, h.2.1, h.2.2.1, h.2.2.2 "x" (by decide)⟩
  · exact (setCooldown_refuses_active_else_records (CooldownManager.mk [("u", 10)] []) 4 "u" 7).1
      10 (by decide) (by decide) (by decide)

theorem KaoriStateStore.delete_none {T : Type} (st : KaoriStateStore T) (key : String)
    (h : msGet st.store key = none) : st.delete key = (false, st, []) := by
  unfold KaoriStateStore.delete
  rw [h]

theorem KaoriStateStore.delete_some {T : Type} (st : KaoriStateStore T) (key : String)
    (e : StateEntry T) (h : msGet st.store key = some e) :
    st.delete key = (true, { st with store := msErase st.store key }, [(key, e.data)]) := by
  unfold KaoriStateStore.delete
  rw [h]

theorem KaoriStateStore.get_eval_none {T : Type} (st : KaoriStateStore T) (now : Int)
    (key : String) (h : msGet st.store key = none) : st.get now key = (none, st, []) := by
  unfold KaoriStateStore.get
  rw [h]

theorem KaoriStateStore.get_eval_some {T : Type} (st : KaoriStateStore T) (now : Int)
    (key : String) (e : StateEntry T) (h : msGet st.store key = some e) :
    st.get now key =
      if now > e.expiresAt then (none, (st.delete key).2.1, (st.delete key).2.2)
      else (some e.data,
        { st with store := msSet st.store key { e with lastAccessed := now } }, []) := by
  unfold KaoriStateStore.get
  rw [h]

theorem KaoriStateStore.has_eval_none {T : Type} (st : KaoriStateStore T) (now : Int)
    (key : String) (h : msGet st.store key = none) : st.has now key = (false, st, []) := by
  unfold KaoriStateStore.has
  rw [h]

theorem KaoriStateStore.has_eval_some {T : Type} (st : KaoriStateStore T) (now : Int)
    (key : String) (e : StateEntry T) (h : msGet st.store key = some e) :
    st.has now key =
      if now > e.expiresAt then (false, (st.delete key).2.1, (st.delete key).2.2)
      else (true, st, []) := by
  unfold KaoriStateStore.has
  rw [h]

theorem KaoriStateStore.set_no_evict {T : Type} (st : KaoriStateStore T) (now : Int)
    (key : String) (value : T) (customTTL : Option Int)
    (h : ¬ ((st.store.length : Int) ≥ st.maxSize ∧ (msGet st.store key).isSome = false)) :
    st.set now key value customTTL =
      ({ st with store := msSet st.store key ⟨value, now + customTTL.getD st.ttl, now⟩ }, []) := by
  unfold KaoriStateStore.set
  rw [if_neg h]

theorem KaoriStateStore.set_evict {T : Type} (st : KaoriStateStore T) (now : Int)
    (key : String) (value : T) (customTTL : Option Int)
    (h : (st.store.length : Int) ≥ st.maxSize ∧ (msGet st.store key).isSome = false) :
    st.set now key value customTTL =
      ({ st.evictLRU.1 with
          store := msSet st.evictLRU.1.store key ⟨value, now + customTTL.getD st.ttl, now⟩ },
        st.evictLRU.2) := by
  unfold KaoriStateStore.set
  rw [if_pos h]

theorem KaoriStateStore.delete_shape {T : Type} (st : KaoriStateStore T) (key : String) :
    (st.delete key).2.1 = { st with store := (st.delete key).2.1.store } := by
  unfold KaoriStateStore.delete
  cases msGet st.store key <;> rfl

theorem KaoriStateStore.evictLRU_shape {T : Type} (st : KaoriStateStore T) :
    st.evictLRU.1 = { st with store := st.evictLRU.1.store } := by
  unfold KaoriStateStore.evictLRU
  cases h : scanOldest st.store none none with
  | none => rfl
  | some k =>
    by_cases hk : k = ""
    · simp [hk]
    · simp [hk]
      exact congrArg (fun x => x.store) (st.delete_shape k) ▸ (st.delete_shape k)

theorem KaoriStateStore.wf_delete {T : Type} (st : KaoriStateStore T) (key : String)
    (hwf : st.wf) : ((st.delete key).2.1).wf := by
  cases h : msGet st.store key with
  | none => rw [st.delete_none key h]; exact hwf
  | some e =>
    rw [st.delete_some key e h]
    exact nodup_msErase key hwf

theorem KaoriStateStore.wf_evictLRU {T : Type} (st : KaoriStateStore T)
    (hwf : st.wf) : (st.evictLRU.1).wf := by
  unfold KaoriStateStore.evictLRU
  cases scanOldest st.store none none with
  | none => exact hwf
  | some k =>
    by_cases hk : k = ""
    · simpa [hk] using hwf
    · simpa [hk] using st.wf_delete k hwf

theorem KaoriStateStore.wf_set {T : Type} (st : KaoriStateStore T) (now : Int)
    (key : String) (value : T) (customTTL : Option Int) (hwf : st.wf) :
    ((st.set now key value customTTL).1).wf := by
  by_cases h : (st.store.length : Int) ≥ st.maxSize ∧ (msGet st.store key).isSome = false
  · rw [st.set_evict now key value customTTL h]
    exact nodup_msSet key _ (st.wf_evictLRU hwf)
  · rw [st.set_no_evict now key value customTTL h]
    exact nodup_msSet key _ hwf

theorem KaoriStateStore.wf_get {T : Type} (st : KaoriStateStore T) (now : Int)
    (key : String) (hwf : st.wf) : ((st.get now key).2.1).wf := by
  cases h : msGet st.store key with
  | none => rw [st.get_eval_none now key h]; exact hwf
  | some e =>
    rw [st.get_eval_some now key e h]
    by_cases hn : now > e.expiresAt
    · simpa [hn] using st.wf_delete key hwf
    · simpa [hn] using nodup_msSet key _ hwf

theorem KaoriStateStore.wf_has {T : Type} (st : KaoriStateStore T) (now : Int)
    (key : String) (hwf : st.wf) : ((st.has now key).2.1).wf := by
  cases h : msGet st.store key with
  | none => rw [st.has_eval_none now key h]; exact hwf
  | some e =>
    rw [st.has_eval_some now key e h]
    by_cases hn : now > e.expiresAt
    · simpa [hn] using st.wf_delete key hwf
    · simpa [hn] using hwf

/-- C4 (amended): an entry set at time `t0` with TTL override `T` gets
`expiresAt = t0 + T`; both `get` and `has` then report it present at every
check time `now ≤ t0 + T` and absent at every check time `now > t0 + T`
(expiry is the strict test `Date.now() > expiresAt`).  A successful `get`
refreshes only `lastAccessed`, keeping `expiresAt = t0 + T`, so the boundary
is stable across repeated checks; at `now > t0 + T` the entry is physically
removed by either check. -/
theorem ttl_presence_boundary {T : Type} (st : KaoriStateStore T) (hwf : st.wf)
    (t0 ttlv : Int) (key : String) (v : T) :
    msGet ((st.set t0 key v (some ttlv)).1).store key = some ⟨v, t0 + ttlv, t0⟩ ∧
    (∀ now, (((st.set t0 key v (some ttlv)).1).get now key).1 = some v ↔ now ≤ t0 + ttlv) ∧
    (∀ now, (((st.set t0 key v (some ttlv)).1).has now key).1 = true ↔ now ≤ t0 + ttlv) ∧
    (∀ now, now ≤ t0 + ttlv →
      msGet ((((st.set t0 key v (some ttlv)).1).get now key).2.1).store key =
        some ⟨v, t0 + ttlv, now⟩) ∧
    (∀ now, t0 + ttlv < now →
      msGet ((((st.set t0 key v (some ttlv)).1).get now key).2.1).store key = none ∧
      msGet ((((st.set t0 key v (some ttlv)).1).has now key).2.1).store key = none) := by
  have h1 : msGet ((st.set t0 key v (some ttlv)).1).store key = some ⟨v, t0 + ttlv, t0⟩ := by
    by_cases h : (st.store.length : Int) ≥ st.maxSize ∧ (msGet st.store key).isSome = false
    · rw [st.set_evict t0 key v (some ttlv) h]
      exact msGet_msSet_self ..
    · rw [st.set_no_evict t0 key v (some ttlv) h]
      exact msGet_msSet_self ..
  have hwf1 : ((st.set t0 key v (some ttlv)).1).wf := st.wf_set t0 key v (some ttlv) hwf
  refine ⟨h1, ?_, ?_, ?_, ?_⟩
  · intro now
    rw [KaoriStateStore.get_eval_some _ now key _ h1]
    by_cases hn : now > t0 + ttlv
    · simp only [hn, if_pos]
      simp
      omega
    · simp only [hn, if_neg, if_false]
      simp
      omega
  · intro now
    rw [KaoriStateStore.has_eval_some _ now key _ h1]
    by_cases hn : now > t0 + ttlv
    · simp only [hn, if_pos]
      simp
      omega
    · simp only [hn, if_neg, if_false]
      simp
      omega
  · intro now hnow
    rw [KaoriStateStore.get_eval_some _ now key _ h1]
    have hn : ¬ now > t0 + ttlv := by omega
    simp only [hn, if_false]
    exact msGet_msSet_self ..
  · intro now hnow
    constructor
    · rw [KaoriStateStore.get_eval_some _ now key _ h1]
      simp only [hnow, if_pos]
      rw [KaoriStateStore.delete_some _ key _ h1]
      exact msGet_msErase_self hwf1
    · rw [KaoriStateStore.has_eval_some _ now key _ h1]
      simp only [hnow, if_pos]
      rw [KaoriStateStore.delete_some _ key _ h1]
      exact msGet_msErase_self hwf1

/-- Witness for the C4 amended theorem: set at `t0 = 0` with TTL 5, checked at
times 2, 5 (present, boundary inclusive) and 9 (absent and removed). -/
theorem ttl_presence_boundary_witness :
    msGet (((defineState Nat (StateOptions.mk "w4" none none)).set 0 "k" 7 (some 5)).1).store "k" =
      some ⟨7, 0 + 5, 0⟩ ∧
    ((((defineState Nat (StateOptions.mk "w4" none none)).set 0 "k" 7 (some 5)).1).get 2 "k").1 =
      some 7 ∧
    ((((defineState Nat (StateOptions.mk "w4" none none)).set 0 "k" 7 (some 5)).1).has 5 "k").1 =
      true ∧
    msGet (((((defineState Nat (StateOptions.mk "w4" none none)).set 0 "k" 7 (some 5)).1).get 9
      "k").2.1).store "k" = none := by
  have h := ttl_presence_boundary (defineState Nat (StateOptions.mk "w4" none none))
    (by decide) 0 5 "k" 7
  exact ⟨h.1, (h.2.1 2).mpr (by decide), (h.2.2.1 5).mpr (by decide),
    (h.2.2.2.2 9 (by decide)).1⟩

theorem scanOldest_go_min {T : Type} (s : List (String × StateEntry T)) (k0 : String)
    (t0 : Int) :
    ∃ k1 t1, scanOldest s (some k0) (some t0) = some k1 ∧ t1 ≤ t0 ∧
      (∀ p ∈ s, t1 ≤ p.2.lastAccessed) ∧
      ((k1 = k0 ∧ t1 = t0) ∨ ∃ e1, (k1, e1) ∈ s ∧ e1.lastAccessed = t1) := by
  induction s generalizing k0 t0 with
  | nil => exact ⟨k0, t0, rfl, le_refl _, by simp, Or.inl ⟨rfl, rfl⟩⟩
  | cons p rest ih =>
    obtain ⟨k, e⟩ := p
    by_cases h : e.lastAccessed < t0
    · obtain ⟨k1, t1, hres, hle, hall, horig⟩ := ih k e.lastAccessed
      refine ⟨k1, t1, by simpa [scanOldest, h] using hres, le_of_lt (lt_of_le_of_lt hle h),
        ?_, ?_⟩
      · intro q hq
        rcases List.mem_cons.mp hq with h1 | h1
        · rw [h1]; exact hle
        · exact hall q h1
      · rcases horig with ⟨hk1, ht1⟩ | ⟨e1, he1, hlast⟩
        · exact Or.inr ⟨e, by rw [hk1]; exact List.mem_cons_self _ _, ht1.symm⟩
        · exact Or.inr ⟨e1, List.mem_cons_of_mem _ he1, hlast⟩
    · obtain ⟨k1, t1, hres, hle, hall, horig⟩ := ih k0 t0
      refine ⟨k1, t1, by simpa [scanOldest, h] using hres, hle, ?_, ?_⟩
      · intro q hq
        rcases List.mem_cons.mp hq with h1 | h1
        · rw [h1]; exact le_trans hle (not_lt.mp h)
        · exact hall q h1
      · rcases horig with h1 | ⟨e1, he1, hlast⟩
        · exact Or.inl h1
        · exact Or.inr ⟨e1, List.mem_cons_of_mem _ he1, hlast⟩

theorem scanOldest_min {T : Type} (s : List (String × StateEntry T))
    (hne : s ≠ []) :
    ∃ k1 e1, scanOldest s none none = some k1 ∧ (k1, e1) ∈ s ∧
      ∀ p ∈ s, e1.lastAccessed ≤ p.2.lastAccessed := by
  cases s with
  | nil => exact absurd rfl hne
  | cons p rest =>
    obtain ⟨ka, ea⟩ := p
    obtain ⟨k1, t1, hres, hle, hall, horig⟩ := scanOldest_go_min rest ka ea.lastAccessed
    have hstep : scanOldest ((ka, ea) :: rest) none none =
        scanOldest rest (some ka) (some ea.lastAccessed) := by
      simp [scanOldest]
    rcases horig with ⟨hk1, ht1⟩ | ⟨e1, he1, hlast⟩
    · refine ⟨k1, ea, hstep.trans hres, by rw [hk1]; exact List.mem_cons_self _ _, ?_⟩
      intro q hq
      rcases List.mem_cons.mp hq with h1 | h1
      · subst h1; exact le_refl _
      · exact ht1 ▸ hall q h1
    · refine ⟨k1, e1, hstep.trans hres, List.mem_cons_of_mem _ he1, ?_⟩
      intro q hq
      rcases List.mem_cons.mp hq with h1 | h1
      · rw [h1]; exact hlast ▸ hle
      · exact hlast ▸ hall q h1

theorem KaoriStateStore.evictLRU_eval_none {T : Type} (st : KaoriStateStore T)
    (h : scanOldest st.store none none = none) : st.evictLRU = (st, []) := by
  unfold KaoriStateStore.evictLRU
  rw [h]

theorem KaoriStateStore.evictLRU_eval_skip {T : Type} (st : KaoriStateStore T)
    (h : scanOldest st.store none none = some "") : st.evictLRU = (st, []) := by
  unfold KaoriStateStore.evictLRU
  rw [h]
  simp

theorem KaoriStateStore.evictLRU_eval_del {T : Type} (st : KaoriStateStore T)
    (k1 : String) (e1 : StateEntry T) (h : scanOldest st.store none none = some k1)
    (hne : k1 ≠ "") (he : msGet st.store k1 = some e1) :
    st.evictLRU = ({ st with store := msErase st.store k1 }, [(k1, e1.data)]) := by
  unfold KaoriStateStore.evictLRU
  rw [h]
  show (if k1 = "" then (st, []) else ((st.delete k1).2.1, (st.delete k1).2.2)) = _
  rw [if_neg hne, st.delete_some k1 e1 he]

theorem length_msSet_of_isSome {β : Type _} {s : List (String × β)} {k : String} (v : β)
    (h : (msGet s k).isSome) : (msSet s k v).length = s.length := by
  have h0 : (msSet s k v).map Prod.fst = s.map Prod.fst := map_fst_msSet_of_isSome v h
  have h1 : ((msSet s k v).map Prod.fst).length = (s.map Prod.fst).length := by rw [h0]
  simpa using h1

theorem exists_other_key {β : Type _} {s : List (String × β)} {k : String}
    (hnd : (s.map Prod.fst).Nodup) (hlen : 2 ≤ s.length) : ∃ p ∈ s, p.1 ≠ k := by
  match s, hlen with
  | p1 :: p2 :: rest, _ =>
    have hne : p1.1 ≠ p2.1 := by
      simp only [List.map_cons, List.nodup_cons, List.mem_cons] at hnd
      intro hh
      exact hnd.1 (Or.inl hh)
    by_cases h1 : p1.1 = k
    · exact ⟨p2, List.mem_cons_of_mem _ (List.mem_cons_self _ _), by rw [← h1]; exact hne.symm⟩
    · exact ⟨p1, List.mem_cons_self _ _, h1⟩

/-- C5 (amended): on a store at capacity holding at least two entries, a
successful `get(k)` refreshes `lastAccessed` of `k` to `now`; if every other
entry is strictly older and a fresh key is inserted immediately afterwards,
the eviction scan picks an entry of globally minimal `lastAccessed`, which
cannot be `k`, so `k` survives the insertion (with its refreshed access time).
The `N ≥ 2` hypothesis is forced: with a single entry, `k` itself is the
minimum and is evicted. -/
theorem get_refresh_prevents_eviction {T : Type} (st : KaoriStateStore T) (now : Int)
    (k newKey : String) (v : T) (e : StateEntry T) (customTTL : Option Int)
    (hwf : st.wf)
    (hatcap : (st.store.length : Int) = st.maxSize)
    (hk : msGet st.store k = some e)
    (hunexp : ¬ now > e.expiresAt)
    (holder : ∀ p ∈ st.store, p.1 ≠ k → p.2.lastAccessed < now)
    (htwo : 2 ≤ st.store.length)
    (hnew : msGet st.store newKey = none) :
    msGet ((((st.get now k).2.1).set now newKey v customTTL).1).store k =
      some { e with lastAccessed := now } := by
  have hknew : k ≠ newKey := by
    intro hh
    rw [hh, hnew] at hk
    exact Option.noConfusion hk
  have hst1 : (st.get now k).2.1 =
      { st with store := msSet st.store k { e with lastAccessed := now } } := by
    rw [st.get_eval_some now k e hk, if_neg hunexp]
  have hnd1 : ((msSet st.store k { e with lastAccessed := now }).map Prod.fst).Nodup :=
    nodup_msSet _ _ hwf
  have hk1 : msGet (msSet st.store k { e with lastAccessed := now }) k =
      some { e with lastAccessed := now } := msGet_msSet_self ..
  have hlen1 : (msSet st.store k { e with lastAccessed := now }).length =
      st.store.length := length_msSet_of_isSome _ (by rw [hk]; rfl)
  have hnew1 : msGet (msSet st.store k { e with lastAccessed := now }) newKey = none := by
    rw [msGet_msSet_ne st.store k newKey _ (Ne.symm hknew), hnew]
  have holder1 : ∀ p ∈ msSet st.store k { e with lastAccessed := now },
      p.1 ≠ k → p.2.lastAccessed < now := by
    intro p hp hpne
    rcases mem_msSet hp with h1 | h1
    · exact absurd (congrArg Prod.fst h1) hpne
    · exact holder p h1 hpne
  have hs1ne : msSet st.store k { e with lastAccessed := now } ≠ [] := by
    intro hh
    rw [hh] at hlen1
    simp at hlen1
    omega
  obtain ⟨k1, e1, hscan, hmem1, hmin⟩ := scanOldest_min _ hs1ne
  have hk1ne : k1 ≠ k := by
    intro hh
    rw [hh] at hmem1
    have he1 : e1 = { e with lastAccessed := now } :=
      nodup_mem_unique hnd1 hmem1 (mem_of_msGet hk1)
    obtain ⟨p0, hp0, hp0ne⟩ : ∃ p0 ∈ msSet st.store k { e with lastAccessed := now },
        p0.1 ≠ k := exists_other_key hnd1 (by omega)
    have h2 := hmin p0 hp0
    have h3 := holder1 p0 hp0 hp0ne
    rw [he1] at h2
    simp only [] at h2
    omega
  have hcond : ((({ st with store := msSet st.store k { e with lastAccessed := now } } :
        KaoriStateStore T).store.length : Int) ≥
          ({ st with store := msSet st.store k { e with lastAccessed := now } } :
            KaoriStateStore T).maxSize ∧
      (msGet ({ st with store := msSet st.store k { e with lastAccessed := now } } :
        KaoriStateStore T).store newKey).isSome = false) := by
    constructor
    · show ((msSet st.store k { e with lastAccessed := now }).length : Int) ≥ st.maxSize
      rw [hlen1]
      exact le_of_eq hatcap.symm
    · show (msGet (msSet st.store k { e with lastAccessed := now }) newKey).isSome = false
      rw [hnew1]
      rfl
  rw [hst1, KaoriStateStore.set_evict _ now newKey v customTTL hcond,
    msGet_msSet_ne _ _ _ _ hknew]
  by_cases hks : k1 = ""
  · rw [hks] at hscan
    rw [KaoriStateStore.evictLRU_eval_skip _ hscan]
    exact hk1
  · have he1get : msGet (msSet st.store k { e with lastAccessed := now }) k1 = some e1 :=
      msGet_of_mem_nodup hnd1 hmem1
    rw [KaoriStateStore.evictLRU_eval_del _ k1 e1 hscan hks he1get]
    show msGet (msErase (msSet st.store k { e with lastAccessed := now }) k1) k =
      some { e with lastAccessed := now }
    rw [msGet_msErase_ne _ _ _ (Ne.symm hk1ne)]
    exact hk1

/-- Witness for the C5 amended theorem: a two-entry store at capacity where
`get("a")` at time 5 refreshes the entry while `"b"` (last accessed at 1) is
older; inserting `"c"` then leaves `"a"` present with `lastAccessed = 5`. -/
theorem get_refresh_prevents_eviction_witness :
    (let st2 := ((((defineState Nat (StateOptions.mk "w5" (some 2) (some 1000))).set 0 "a" 1
        none).1).set 1 "b" 2 none).1
     st2.store.length = 2 ∧ (st2.store.length : Int) = st2.maxSize ∧
       msGet ((((st2.get 5 "a").2.1).set 5 "c" 9 none).1).store "a" =
         some (StateEntry.mk 1 1000 5)) := by
  refine ⟨by decide, by decide, ?_⟩
  exact get_refresh_prevents_eviction _ 5 "a" "c" 9 (StateEntry.mk 1 1000 0) none
    (by decide) (by decide) (by decide) (by decide) (by decide) (by decide) (by decide)

/-- C8 (amended): after a dequeue on a nonempty queue the capacity is halved
(`Math.floor(capacity / 2)`) exactly when the post-dequeue count satisfies
`count > 0`, `count < capacity / 4` and `capacity > 16`, and is unchanged
otherwise.  The result is at least 16 whenever the previous capacity was at
least 32, and a capacity of at most 16 never shrinks; but a capacity in
17..31 can halve to below 16 (see the counterexample). -/
theorem dequeue_shrink_capacity_spec {α : Type} (q : Queue α) (hc : 0 < q.count) :
    ((q.dequeue).2.capacity =
      if 0 < q.count - 1 ∧ 4 * (q.count - 1) < q.capacity ∧ 16 < q.capacity
      then q.capacity / 2 else q.capacity) ∧
    (32 ≤ q.capacity → 16 ≤ (q.dequeue).2.capacity) ∧
    (q.capacity ≤ 16 → (q.dequeue).2.capacity = q.capacity) := by
  have h0 : ¬ q.count = 0 := Nat.pos_iff_ne_zero.mp hc
  have hd : q.dequeue = (q.elements.getD q.head none,
      if 0 < q.count - 1 ∧ 4 * (q.count - 1) < q.capacity ∧ 16 < q.capacity
      then ({ q with elements := q.elements.set q.head none,
                     head := (q.head + 1) % q.capacity,
                     count := q.count - 1 } : Queue α).shrink
      else { q with elements := q.elements.set q.head none,
                    head := (q.head + 1) % q.capacity,
                    count := q.count - 1 }) := by
    unfold Queue.dequeue
    rw [if_neg h0]
  rw [hd]
  by_cases hcond : 0 < q.count - 1 ∧ 4 * (q.count - 1) < q.capacity ∧ 16 < q.capacity
  · rw [if_pos hcond, if_pos hcond]
    refine ⟨rfl, ?_, ?_⟩
    · intro h32
      show 16 ≤ q.capacity / 2
      omega
    · intro h16
      exact absurd hcond.2.2 (by omega)
  · rw [if_neg hcond, if_neg hcond]
    refine ⟨rfl, ?_, fun _ => rfl⟩
    intro h32
    show 16 ≤ q.capacity
    omega

/-- Witness for the C8 amended theorem: a 2-element queue of capacity 20
dequeues into the shrink condition and halves to capacity 10 (and 20 ≤ 16 is
vacuous, 32 ≤ 20 is vacuous, the first conjunct evaluates). -/
theorem dequeue_shrink_capacity_spec_witness :
    (let q2 := ((mkQueue Nat 20).enqueue 1).enqueue 2
     0 < q2.count ∧ (q2.dequeue).2.capacity = 10) := by
  refine ⟨by decide, ?_⟩
  have h := dequeue_shrink_capacity_spec (((mkQueue Nat 20).enqueue 1).enqueue 2) (by decide)
  exact h.1.trans (by decide)

theorem getD_replicate_none {α : Type} (n j : Nat) :
    (List.replicate n (none : Option α)).getD j none = none := by
  rw [List.getD_eq_getD_get?]
  cases h : (List.replicate n (none : Option α)).get? j with
  | none => rfl
  | some v =>
    have := List.get?_mem h
    rw [List.eq_of_mem_replicate this]
    rfl

theorem getD_set_self {α : Type} (l : List (Option α)) (i : Nat) (a : Option α)
    (h : i < l.length) : (l.set i a).getD i none = a := by
  rw [List.getD_eq_getD_get?, List.get?_set_eq_of_lt a h]
  rfl

theorem getD_set_ne {α : Type} (l : List (Option α)) (i j : Nat) (a : Option α)
    (h : i ≠ j) : (l.set i a).getD j none = l.getD j none := by
  rw [List.getD_eq_getD_get?, List.get?_set_ne a l h, List.getD_eq_getD_get?]

theorem foldl_set_length {α : Type} (g : Nat → Option α) (n : Nat)
    (init : List (Option α)) :
    ((List.range n).foldl (fun acc i => acc.set i (g i)) init).length = init.length := by
  induction n with
  | zero => rfl
  | succ m ih =>
    rw [List.range_succ, List.foldl_append]
    simp only [List.foldl_cons, List.foldl_nil, List.length_set]
    exact ih

theorem foldl_set_getD {α : Type} (g : Nat → Option α) (n : Nat)
    (init : List (Option α)) (j : Nat) :
    ((List.range n).foldl (fun acc i => acc.set i (g i)) init).getD j none =
      if j < n ∧ j < init.length then g j else init.getD j none := by
  induction n with
  | zero => simp
  | succ m ih =>
    rw [List.range_succ, List.foldl_append]
    simp only [List.foldl_cons, List.foldl_nil]
    by_cases hj : j = m
    · by_cases hlen : j < init.length
      · rw [hj, getD_set_self _ _ _ (by rw [foldl_set_length]; exact hj ▸ hlen)]
        rw [if_pos ⟨by omega, hj ▸ hlen⟩]
      · rw [hj] at hlen
        rw [List.set_eq_of_length_le (by rw [foldl_set_length]; omega)]
        rw [ih, if_neg (by omega), if_neg (by omega)]
    · rw [getD_set_ne _ _ _ _ (fun hh => hj hh.symm), ih]
      by_cases hc : j < m ∧ j < init.length
      · rw [if_pos hc, if_pos ⟨by omega, hc.2⟩]
      · rw [if_neg hc, if_neg (by omega)]

theorem add_mod_left_reduce (a b n : Nat) : (a % n + b) % n = (a + b) % n :=
  (Nat.mod_modEq a n).add_right b

theorem mod_shift_inj {h i j cap : Nat} (hi : i < cap) (hj : j < cap)
    (he : (h + i) % cap = (h + j) % cap) : i = j := by
  have h1 : i % cap = j % cap := Nat.ModEq.add_left_cancel' h he
  rwa [Nat.mod_eq_of_lt hi, Nat.mod_eq_of_lt hj] at h1

theorem Queue.resize_elements_getD {α : Type} (q : Queue α) (newCapacity j : Nat) :
    (q.resize newCapacity).elements.getD j none =
      if j < q.count ∧ j < newCapacity then
        q.elements.getD ((q.head + j) % q.capacity) none
      else none := by
  show ((List.range q.count).foldl
      (fun acc i => acc.set i (q.elements.getD ((q.head + i) % q.capacity) none))
      (List.replicate newCapacity none)).getD j none = _
  rw [foldl_set_getD (fun i => q.elements.getD ((q.head + i) % q.capacity) none)]
  rw [List.length_replicate, getD_replicate_none]

theorem Queue.resize_toList {α : Type} (q : Queue α) (n : Nat) (hn : q.count ≤ n) :
    (q.resize n).toList = q.toList := by
  unfold Queue.toList
  have hc : (q.resize n).count = q.count := rfl
  have hh : (q.resize n).head = 0 := rfl
  have hcap : (q.resize n).capacity = n := rfl
  rw [hc, hh, hcap]
  refine List.map_congr_left ?_
  intro i hi
  have hi1 : i < q.count := List.mem_range.mp hi
  have hi2 : i < n := lt_of_lt_of_le hi1 hn
  rw [Nat.zero_add, Nat.mod_eq_of_lt hi2, Queue.resize_elements_getD,
    if_pos ⟨hi1, hi2⟩]

theorem Queue.resize_length {α : Type} (q : Queue α) (n : Nat) :
    (q.resize n).elements.length = n := by
  show ((List.range q.count).foldl
      (fun acc i => acc.set i (q.elements.getD ((q.head + i) % q.capacity) none))
      (List.replicate n none)).length = n
  rw [foldl_set_length (fun i => q.elements.getD ((q.head + i) % q.capacity) none),
    List.length_replicate]

theorem Queue.wf_resize {α : Type} (q : Queue α) (n : Nat) (hlt : q.count < n) :
    (q.resize n).wf := by
  refine ⟨q.resize_length n, by show (0:Nat) < n; omega, le_of_lt hlt,
    by show (0:Nat) < n; omega, ?_⟩
  show q.count = (0 + q.count) % n
  rw [Nat.zero_add, Nat.mod_eq_of_lt hlt]

theorem Queue.toList_cons {α : Type} (q : Queue α) (hpos : 0 < q.count)
    (hhead : q.head < q.capacity) :
    q.toList = q.elements.getD q.head none ::
      (List.range (q.count - 1)).map
        (fun i => q.elements.getD ((q.head + (i + 1)) % q.capacity) none) := by
  unfold Queue.toList
  obtain ⟨c, hc⟩ : ∃ c, q.count = c + 1 := ⟨q.count - 1, by omega⟩
  rw [hc, List.range_succ_eq_map, List.map_cons, List.map_map]
  rw [Nat.add_zero, Nat.mod_eq_of_lt hhead]
  simp only [Nat.add_sub_cancel]
  rfl

theorem Queue.enqueue_core {α : Type} (q : Queue α) (x : α) (hwf : q.wf)
    (hlt : q.count < q.capacity) :
    ({ q with elements := q.elements.set q.tail (some x),
              tail := (q.tail + 1) % q.capacity, count := q.count + 1 } : Queue α).toList =
      q.toList ++ [some x] ∧
    ({ q with elements := q.elements.set q.tail (some x),
              tail := (q.tail + 1) % q.capacity, count := q.count + 1 } : Queue α).wf := by
  obtain ⟨hlen, hcap, hcnt, hhead, htail⟩ := hwf
  have htlt : q.tail < q.capacity := by
    rw [htail]
    exact Nat.mod_lt _ hcap
  constructor
  · show (List.range (q.count + 1)).map
        (fun i => (q.elements.set q.tail (some x)).getD ((q.head + i) % q.capacity) none) =
      q.toList ++ [some x]
    rw [List.range_succ, List.map_append, List.map_cons, List.map_nil]
    congr 1
    · refine List.map_congr_left ?_
      intro i hi
      have hi1 : i < q.count := List.mem_range.mp hi
      have hne : q.tail ≠ (q.head + i) % q.capacity := by
        rw [htail]
        intro hh
        have := mod_shift_inj hlt (lt_of_lt_of_le hi1 hcnt) hh
        omega
      rw [getD_set_ne _ _ _ _ hne]
    · rw [htail, getD_set_self]
      rw [hlen]
      exact Nat.mod_lt _ hcap
  · refine ⟨by rw [List.length_set]; exact hlen, hcap,
      by show q.count + 1 ≤ q.capacity; omega, hhead, ?_⟩
    show (q.tail + 1) % q.capacity = (q.head + (q.count + 1)) % q.capacity
    rw [htail, add_mod_left_reduce]
    congr 1

theorem Queue.enqueue_spec {α : Type} (q : Queue α) (x : α) (hwf : q.wf) :
    (q.enqueue x).toList = q.toList ++ [some x] ∧ (q.enqueue x).wf := by
  by_cases hfull : q.count = q.capacity
  · have hg2 : (q.grow).wf := by
      refine q.wf_resize _ ?_
      have := hwf.2.1
      omega
    have hg1 : (q.grow).toList = q.toList := q.resize_toList _ (by have := hwf.2.2.1; omega)
    have hcore := Queue.enqueue_core (q.grow) x hg2
      (by show q.count < q.capacity * 2; have := hwf.2.1; omega)
    have henq : q.enqueue x =
        { q.grow with elements := (q.grow).elements.set (q.grow).tail (some x),
                      tail := ((q.grow).tail + 1) % (q.grow).capacity,
                      count := (q.grow).count + 1 } := by
      unfold Queue.enqueue
      rw [if_pos hfull]
    rw [henq]
    exact ⟨hcore.1.trans (by rw [hg1]), hcore.2⟩
  · have hcore := Queue.enqueue_core q x hwf (lt_of_le_of_ne hwf.2.2.1 hfull)
    have henq : q.enqueue x =
        { q with elements := q.elements.set q.tail (some x),
                 tail := (q.tail + 1) % q.capacity, count := q.count + 1 } := by
      unfold Queue.enqueue
      rw [if_neg hfull]
    rw [henq]
    exact hcore

theorem Queue.dequeue_eval {α : Type} (q : Queue α) (h0 : ¬ q.count = 0) :
    q.dequeue = (q.elements.getD q.head none,
      if 0 < q.count - 1 ∧ 4 * (q.count - 1) < q.capacity ∧ 16 < q.capacity
      then ({ q with elements := q.elements.set q.head none,
                     head := (q.head + 1) % q.capacity,
                     count := q.count - 1 } : Queue α).shrink
      else { q with elements := q.elements.set q.head none,
                    head := (q.head + 1) % q.capacity,
                    count := q.count - 1 }) := by
  unfold Queue.dequeue
  rw [if_neg h0]

theorem Queue.dequeue_core {α : Type} (q : Queue α) (hwf : q.wf) (hpos : 0 < q.count) :
    ({ q with elements := q.elements.set q.head none,
              head := (q.head + 1) % q.capacity, count := q.count - 1 } : Queue α).toList =
      q.toList.tail ∧
    ({ q with elements := q.elements.set q.head none,
              head := (q.head + 1) % q.capacity, count := q.count - 1 } : Queue α).wf := by
  obtain ⟨hlen, hcap, hcnt, hhead, htail⟩ := hwf
  constructor
  · rw [Queue.toList_cons q hpos hhead]
    show (List.range (q.count - 1)).map
        (fun i => (q.elements.set q.head none).getD
          (((q.head + 1) % q.capacity + i) % q.capacity) none) =
      (q.elements.getD q.head none :: (List.range (q.count - 1)).map
        (fun i => q.elements.getD ((q.head + (i + 1)) % q.capacity) none)).tail
    rw [List.tail_cons]
    refine List.map_congr_left ?_
    intro i hi
    have hi1 : i < q.count - 1 := List.mem_range.mp hi
    have hidx : ((q.head + 1) % q.capacity + i) % q.capacity =
        (q.head + (i + 1)) % q.capacity := by
      rw [add_mod_left_reduce]
      congr 1
      omega
    rw [hidx]
    have hne : q.head ≠ (q.head + (i + 1)) % q.capacity := by
      intro hh
      have hh0 : (q.head + 0) % q.capacity = (q.head + (i + 1)) % q.capacity := by
        rw [Nat.add_zero, Nat.mod_eq_of_lt hhead]
        exact hh
      have := mod_shift_inj (by omega) (by omega) hh0
      omega
    rw [getD_set_ne _ _ _ _ hne]
  · refine ⟨by rw [List.length_set]; exact hlen, hcap,
      by show q.count - 1 ≤ q.capacity; omega,
      by show (q.head + 1) % q.capacity < q.capacity; exact Nat.mod_lt _ hcap, ?_⟩
    show q.tail = ((q.head + 1) % q.capacity + (q.count - 1)) % q.capacity
    rw [add_mod_left_reduce, htail]
    congr 1
    omega

theorem Queue.dequeue_spec {α : Type} (q : Queue α) (hwf : q.wf) (hpos : 0 < q.count) :
    (q.dequeue).1 = q.toList.getD 0 none ∧
    (q.dequeue).2.toList = q.toList.tail ∧ (q.dequeue).2.wf := by
  have h0 : ¬ q.count = 0 := by omega
  have hcore := Queue.dequeue_core q hwf hpos
  rw [q.dequeue_eval h0]
  refine ⟨?_, ?_⟩
  · rw [Queue.toList_cons q hpos hwf.2.2.2.1]
    rfl
  · by_cases hcond : 0 < q.count - 1 ∧ 4 * (q.count - 1) < q.capacity ∧ 16 < q.capacity
    · rw [if_pos hcond]
      constructor
      · exact (Queue.resize_toList _ _
          (by show q.count - 1 ≤ q.capacity / 2; omega)).trans hcore.1
      · exact Queue.wf_resize _ _ (by show q.count - 1 < q.capacity / 2; omega)
    · rw [if_neg hcond]
      exact hcore

theorem runQueue_sim {α : Type} (ops : List (QOp α)) (q : Queue α) (l : List α)
    (hwf : q.wf) (habs : q.toList = l.map some) :
    (runQueue q ops).1 = (runModel l ops).1 ∧
    (runQueue q ops).2.wf ∧
    (runQueue q ops).2.toList = (runModel l ops).2.map some := by
  induction ops generalizing q l with
  | nil =>
    simp only [runQueue, runModel]
    exact ⟨trivial, hwf, habs⟩
  | cons op rest ih =>
    cases op with
    | enq x =>
      have h := Queue.enqueue_spec q x hwf
      have habs2 : (q.enqueue x).toList = (l ++ [x]).map some := by
        rw [h.1, habs]
        simp
      simp only [runQueue, runModel]
      exact ih (q.enqueue x) (l ++ [x]) h.2 habs2
    | deq =>
      have hlenq : q.toList.length = q.count := by
        simp [Queue.toList]
      cases l with
      | nil =>
        have hcount : q.count = 0 := by
          rw [habs] at hlenq
          simpa using hlenq.symm
        have hdq : q.dequeue = (none, q) := by
          unfold Queue.dequeue
          rw [if_pos hcount]
        have hrec := ih q [] hwf habs
        simp only [runQueue, runModel, hdq]
        exact ⟨by rw [hrec.1], hrec.2.1, hrec.2.2⟩
      | cons y ys =>
        have hpos : 0 < q.count := by
          rw [habs] at hlenq
          simp at hlenq
          omega
        obtain ⟨h1, h2, h3⟩ := Queue.dequeue_spec q hwf hpos
        have hfst : (q.dequeue).1 = some y := by
          rw [h1, habs]
          rfl
        have habs2 : (q.dequeue).2.toList = ys.map some := by
          rw [h2, habs]
          rfl
        have hrec := ih (q.dequeue).2 ys h3 habs2
        simp only [runQueue, runModel]
        exact ⟨by rw [hfst, hrec.1], hrec.2.1, hrec.2.2⟩

/-- C7: running any interleaved sequence of enqueue/dequeue operations on a
well-formed circular-buffer queue produces exactly the dequeue outputs of the
plain FIFO list model (values come back in insertion order, `undefined` on
empty dequeues), the final buffer content in FIFO order equals the final model
list, and any capacity change via `resize` (as invoked by grow and shrink)
preserves `toArray` exactly. -/
theorem queue_fifo_roundtrip {α : Type} (q : Queue α) (l : List α) (ops : List (QOp α))
    (hwf : q.wf) (habs : q.toList = l.map some) :
    (runQueue q ops).1 = (runModel l ops).1 ∧
    (runQueue q ops).2.toList = (runModel l ops).2.map some ∧
    (∀ n, q.count ≤ n → (q.resize n).toList = q.toList) := by
  obtain ⟨ho, hw, ht⟩ := runQueue_sim ops q l hwf habs
  exact ⟨ho, ht, fun n hn => q.resize_toList n hn⟩

/-- Witness for the C7 theorem: a concrete mixed run on the default queue,
including a dequeue on empty, plus a concrete capacity change. -/
theorem queue_fifo_roundtrip_witness :
    (let ops := [QOp.enq 1, QOp.enq 2, QOp.deq, QOp.enq 3, QOp.deq, QOp.deq, QOp.deq]
     (runQueue (mkQueue Nat 16) ops).1 = (runModel ([] : List Nat) ops).1 ∧
       (runQueue (mkQueue Nat 16) ops).2.toList =
         (runModel ([] : List Nat) ops).2.map some ∧
       ((mkQueue Nat 16).resize 20).toList = (mkQueue Nat 16).toList) := by
  have h := queue_fifo_roundtrip (mkQueue Nat 16) []
    [QOp.enq 1, QOp.enq 2, QOp.deq, QOp.enq 3, QOp.deq, QOp.deq, QOp.deq]
    (by decide) (by decide)
  exact ⟨h.1, h.2.1, h.2.2 20 (by decide)⟩

theorem removed_nil_of_present {T : Type} {s t : List (String × StateEntry T)}
    (h : ∀ p ∈ s, (msGet t p.1).isSome) : removedEntries s t = [] := by
  unfold removedEntries
  rw [List.filter_eq_nil.mpr]
  · rfl
  · intro p hp
    have := h p hp
    simp [Option.isNone_iff_eq_none]
    exact Option.isSome_iff_ne_none.mp this

theorem msGet_isSome_of_mem_pair {β : Type _} {s : List (String × β)} {p : String × β}
    (h : p ∈ s) : (msGet s p.1).isSome := by
  obtain ⟨k, v⟩ := p
  exact msGet_isSome_of_mem h

theorem removed_self {T : Type} (s : List (String × StateEntry T)) :
    removedEntries s s = [] :=
  removed_nil_of_present (fun _ hp => msGet_isSome_of_mem_pair hp)

theorem removed_msSet {T : Type} (s : List (String × StateEntry T)) (key : String)
    (e : StateEntry T) : removedEntries s (msSet s key e) = [] := by
  refine removed_nil_of_present ?_
  intro p hp
  by_cases hk : p.1 = key
  · rw [hk, msGet_msSet_self]
    rfl
  · rw [msGet_msSet_ne _ _ _ _ hk]
    obtain ⟨k, v⟩ := p
    exact msGet_isSome_of_mem hp

theorem filter_key_single {T : Type} {s : List (String × StateEntry T)} {k : String}
    {e : StateEntry T} (hnd : (s.map Prod.fst).Nodup) (h : msGet s k = some e) :
    s.filter (fun p => decide (p.1 = k)) = [(k, e)] := by
  induction s with
  | nil => simp [msGet] at h
  | cons p rest ih =>
    obtain ⟨k0, e0⟩ := p
    simp only [List.map_cons, List.nodup_cons] at hnd
    by_cases hk : k0 = k
    · rw [msGet, if_pos hk] at h
      have he : e0 = e := Option.some.inj h
      rw [List.filter_cons_of_pos (by simpa using hk), hk, he]
      rw [List.filter_eq_nil.mpr]
      intro q hq
      simp only [decide_eq_true_eq]
      intro hq1
      rw [← hk] at hq1
      exact hnd.1 (hq1 ▸ List.mem_map.mpr ⟨q, hq, rfl⟩)
    · rw [msGet, if_neg hk] at h
      rw [List.filter_cons_of_neg (by simpa using hk), ih hnd.2 h]

theorem removed_msErase {T : Type} {s : List (String × StateEntry T)} {key : String}
    {e : StateEntry T} (hnd : (s.map Prod.fst).Nodup) (h : msGet s key = some e) :
    removedEntries s (msErase s key) = [(key, e.data)] := by
  unfold removedEntries
  have hcongr : ∀ p ∈ s,
      ((msGet (msErase s key) p.1).isNone : Bool) = decide (p.1 = key) := by
    intro p hp
    by_cases hk : p.1 = key
    · rw [hk, msGet_msErase_self hnd]
      simp [hk]
    · rw [msGet_msErase_ne _ _ _ hk]
      have := msGet_isSome_of_mem_pair hp
      rcases Option.isSome_iff_exists.mp this with ⟨w, hw⟩
      simp [hw, hk]
  rw [List.filter_congr hcongr, filter_key_single hnd h]
  rfl

theorem removed_msSet_msErase {T : Type} {s : List (String × StateEntry T)}
    {k1 key : String} {e1 : StateEntry T} (enew : StateEntry T)
    (hnd : (s.map Prod.fst).Nodup) (h1 : msGet s k1 = some e1)
    (hkey : msGet s key = none) :
    removedEntries s (msSet (msErase s k1) key enew) = [(k1, e1.data)] := by
  unfold removedEntries
  have hcongr : ∀ p ∈ s,
      ((msGet (msSet (msErase s k1) key enew) p.1).isNone : Bool) =
        decide (p.1 = k1) := by
    intro p hp
    have hpkey : p.1 ≠ key := by
      intro hh
      have hs := msGet_isSome_of_mem_pair hp
      rw [hh, hkey] at hs
      exact Bool.noConfusion hs
    rw [msGet_msSet_ne _ _ _ _ hpkey]
    by_cases hk : p.1 = k1
    · rw [hk, msGet_msErase_self hnd]
      simp [hk]
    · rw [msGet_msErase_ne _ _ _ hk]
      have := msGet_isSome_of_mem_pair hp
      rcases Option.isSome_iff_exists.mp this with ⟨w, hw⟩
      simp [hw, hk]
  rw [List.filter_congr hcongr, filter_key_single hnd h1]
  rfl

theorem msGet_filter {T : Type} {s : List (String × StateEntry T)} {k : String}
    {e : StateEntry T} (g : String × StateEntry T → Bool)
    (hnd : (s.map Prod.fst).Nodup) (hmem : (k, e) ∈ s) :
    msGet (s.filter g) k = if g (k, e) then some e else none := by
  induction s with
  | nil => simp at hmem
  | cons p rest ih =>
    obtain ⟨k0, e0⟩ := p
    simp only [List.map_cons, List.nodup_cons] at hnd
    rcases List.mem_cons.mp hmem with h1 | h1
    · cases h1
      by_cases hg : g (k, e)
      · rw [List.filter_cons_of_pos hg, msGet, if_pos rfl, if_pos hg]
      · rw [List.filter_cons_of_neg hg, if_neg hg]
        rw [msGet_eq_none_iff]
        intro hmem2
        rcases List.mem_map.mp hmem2 with ⟨q, hq, hq1⟩
        exact hnd.1 (hq1 ▸ List.mem_map.mpr ⟨q, List.mem_of_mem_filter hq, rfl⟩)
    · have hk0 : k0 ≠ k := by
        intro hh
        exact hnd.1 (hh ▸ List.mem_map.mpr ⟨(k, e), h1, rfl⟩)
      by_cases hg : g (k0, e0)
      · rw [List.filter_cons_of_pos hg, msGet, if_neg hk0]
        exact ih hnd.2 h1
      · rw [List.filter_cons_of_neg hg]
        exact ih hnd.2 h1

theorem foldDeleteRaw_skip {T : Type} (ks : List String) (k : String) (e : StateEntry T) :
    ∀ rest : List (String × StateEntry T), (∀ k2 ∈ ks, k2 ≠ k) →
      foldDeleteRaw ((k, e) :: rest) ks =
        ((k, e) :: (foldDeleteRaw rest ks).1, (foldDeleteRaw rest ks).2) := by
  induction ks with
  | nil => intro rest _; rfl
  | cons k2 ks ih =>
    intro rest hne
    have hk2 : ¬ k = k2 := fun hh => hne k2 (List.mem_cons_self _ _) hh.symm
    show (match msGet ((k, e) :: rest) k2 with
      | none => foldDeleteRaw ((k, e) :: rest) ks
      | some e2 =>
        ((foldDeleteRaw (msErase ((k, e) :: rest) k2) ks).1,
          (k2, e2.data) :: (foldDeleteRaw (msErase ((k, e) :: rest) k2) ks).2)) = _
    rw [show msGet ((k, e) :: rest) k2 = msGet rest k2 from by rw [msGet, if_neg hk2]]
    cases hg : msGet rest k2 with
    | none =>
      show foldDeleteRaw ((k, e) :: rest) ks = _
      rw [ih rest (fun k3 h3 => hne k3 (List.mem_cons_of_mem _ h3))]
      show _ = ((k, e) :: (match msGet rest k2 with
        | none => foldDeleteRaw rest ks
        | some e2 => ((foldDeleteRaw (msErase rest k2) ks).1,
            (k2, e2.data) :: (foldDeleteRaw (msErase rest k2) ks).2)).1,
        (match msGet rest k2 with
        | none => foldDeleteRaw rest ks
        | some e2 => ((foldDeleteRaw (msErase rest k2) ks).1,
            (k2, e2.data) :: (foldDeleteRaw (msErase rest k2) ks).2)).2)
      rw [hg]
    | some e2 =>
      show ((foldDeleteRaw (msErase ((k, e) :: rest) k2) ks).1,
          (k2, e2.data) :: (foldDeleteRaw (msErase ((k, e) :: rest) k2) ks).2) = _
      rw [show msErase ((k, e) :: rest) k2 = (k, e) :: msErase rest k2 from by
        rw [msErase, if_neg hk2]]
      rw [ih (msErase rest k2) (fun k3 h3 => hne k3 (List.mem_cons_of_mem _ h3))]
      show _ = ((k, e) :: (match msGet rest k2 with
        | none => foldDeleteRaw rest ks
        | some e2 => ((foldDeleteRaw (msErase rest k2) ks).1,
            (k2, e2.data) :: (foldDeleteRaw (msErase rest k2) ks).2)).1,
        (match msGet rest k2 with
        | none => foldDeleteRaw rest ks
        | some e2 => ((foldDeleteRaw (msErase rest k2) ks).1,
            (k2, e2.data) :: (foldDeleteRaw (msErase rest k2) ks).2)).2)
      rw [hg]

theorem foldDeleteRaw_cons_none {T : Type} (s : List (String × StateEntry T)) (k : String)
    (ks : List String) (h : msGet s k = none) :
    foldDeleteRaw s (k :: ks) = foldDeleteRaw s ks := by
  simp only [foldDeleteRaw, h]

theorem foldDeleteRaw_cons_some {T : Type} (s : List (String × StateEntry T)) (k : String)
    (e : StateEntry T) (ks : List String) (h : msGet s k = some e) :
    foldDeleteRaw s (k :: ks) =
      ((foldDeleteRaw (msErase s k) ks).1,
        (k, e.data) :: (foldDeleteRaw (msErase s k) ks).2) := by
  simp only [foldDeleteRaw, h]

theorem foldDeleteRaw_cleanup {T : Type} (now : Int) :
    ∀ s : List (String × StateEntry T), (s.map Prod.fst).Nodup →
      foldDeleteRaw s ((s.filter (fun p => decide (now > p.2.expiresAt))).map Prod.fst) =
        (s.filter (fun p => ! decide (now > p.2.expiresAt)),
          (s.filter (fun p => decide (now > p.2.expiresAt))).map (fun p => (p.1, p.2.data)))
  | [], _ => rfl
  | (k, e) :: rest, hnd => by
    have hnd2 : k ∉ rest.map Prod.fst ∧ (rest.map Prod.fst).Nodup := by
      simpa using hnd
    by_cases hP : (decide (now > e.expiresAt)) = true
    · rw [List.filter_cons_of_pos (by exact hP), List.map_cons,
        foldDeleteRaw_cons_some _ k e _ (by rw [msGet, if_pos rfl]),
        show msErase ((k, e) :: rest) k = rest from by rw [msErase, if_pos rfl],
        foldDeleteRaw_cleanup now rest hnd2.2,
        List.filter_cons_of_neg (by simp [hP])]
      rfl
    · rw [List.filter_cons_of_neg (by exact hP)]
      have hknotin : ∀ k2 ∈ (rest.filter
          (fun p => decide (now > p.2.expiresAt))).map Prod.fst, k2 ≠ k := by
        intro k2 h2 hh
        rcases List.mem_map.mp h2 with ⟨q, hq, hq1⟩
        exact hnd2.1 (hh ▸ hq1 ▸ List.mem_map.mpr ⟨q, List.mem_of_mem_filter hq, rfl⟩)
      rw [foldDeleteRaw_skip _ k e rest hknotin, foldDeleteRaw_cleanup now rest hnd2.2,
        List.filter_cons_of_pos (by simp [Bool.not_eq_true] at hP ⊢; exact hP)]

theorem cleanupTick_spec {T : Type} (st : KaoriStateStore T) (now : Int) (hwf : st.wf) :
    st.cleanupTick now =
      ({ st with store := st.store.filter (fun p => ! decide (now > p.2.expiresAt)) },
        (st.store.filter (fun p => decide (now > p.2.expiresAt))).map
          (fun p => (p.1, p.2.data))) := by
  unfold KaoriStateStore.cleanupTick
  show ({ st with store := (foldDeleteRaw st.store
      ((st.store.filter (fun p : String × StateEntry T =>
        decide (now > p.2.expiresAt))).map Prod.fst)).1 },
    (foldDeleteRaw st.store
      ((st.store.filter (fun p : String × StateEntry T =>
        decide (now > p.2.expiresAt))).map Prod.fst)).2) = _
  rw [foldDeleteRaw_cleanup now st.store hwf]

theorem removed_cleanup {T : Type} (s : List (String × StateEntry T)) (now : Int)
    (hnd : (s.map Prod.fst).Nodup) :
    removedEntries s (s.filter (fun p => ! decide (now > p.2.expiresAt))) =
      (s.filter (fun p => decide (now > p.2.expiresAt))).map (fun p => (p.1, p.2.data)) := by
  unfold removedEntries
  have hcongr : ∀ p ∈ s,
      ((msGet (s.filter (fun q => ! decide (now > q.2.expiresAt))) p.1).isNone : Bool) =
        decide (now > p.2.expiresAt) := by
    intro p hp
    obtain ⟨k, e⟩ := p
    rw [msGet_filter _ hnd hp]
    cases hP : decide (now > e.expiresAt) with
    | false =>
      rw [if_pos (by simp [hP])]
      simp
    | true =>
      rw [if_neg (by simp [hP])]
      simp
  rw [List.filter_congr hcongr]

/-- C3: for every operation on a well-formed store, the list of `(key, value)`
pairs handed to the `onExpire` callback (the fired log) equals the list of
entries logically removed by that operation — exactly the entries present
before and absent after, with their prior values, each listed once (keys in a
store are pairwise distinct).  This covers explicit `delete`, `clear` (once
per entry), lazy TTL removal inside `get` and `has`, LRU eviction inside
`set`, and the periodic sweep (`cleanupTick`). -/
theorem onExpire_fires_once_per_removal {T : Type} (st : KaoriStateStore T) (now : Int)
    (key : String) (value : T) (customTTL : Option Int) (hwf : st.wf) :
    (st.delete key).2.2 = removedEntries st.store (st.delete key).2.1.store ∧
    (st.clear).2 = removedEntries st.store (st.clear).1.store ∧
    (st.get now key).2.2 = removedEntries st.store (st.get now key).2.1.store ∧
    (st.has now key).2.2 = removedEntries st.store (st.has now key).2.1.store ∧
    (st.set now key value customTTL).2 =
      removedEntries st.store (st.set now key value customTTL).1.store ∧
    (st.cleanupTick now).2 = removedEntries st.store (st.cleanupTick now).1.store := by
  have hclear : removedEntries st.store ([] : List (String × StateEntry T)) =
      st.store.map (fun p => (p.1, p.2.data)) := by
    unfold removedEntries
    have hfe : st.store.filter
        (fun p => (msGet ([] : List (String × StateEntry T)) p.1).isNone) = st.store :=
      List.filter_eq_self.mpr (fun a _ => rfl)
    rw [hfe]
  refine ⟨?_, ?_, ?_, ?_, ?_, ?_⟩
  · cases h : msGet st.store key with
    | none =>
      rw [st.delete_none key h]
      exact (removed_self st.store).symm
    | some e =>
      rw [st.delete_some key e h]
      exact (removed_msErase hwf h).symm
  · exact hclear.symm
  · cases h : msGet st.store key with
    | none =>
      rw [st.get_eval_none now key h]
      exact (removed_self st.store).symm
    | some e =>
      rw [st.get_eval_some now key e h]
      by_cases hn : now > e.expiresAt
      · rw [if_pos hn, st.delete_some key e h]
        exact (removed_msErase hwf h).symm
      · rw [if_neg hn]
        exact (removed_msSet st.store key _).symm
  · cases h : msGet st.store key with
    | none =>
      rw [st.has_eval_none now key h]
      exact (removed_self st.store).symm
    | some e =>
      rw [st.has_eval_some now key e h]
      by_cases hn : now > e.expiresAt
      · rw [if_pos hn, st.delete_some key e h]
        exact (removed_msErase hwf h).symm
      · rw [if_neg hn]
        exact (removed_self st.store).symm
  · by_cases hc : (st.store.length : Int) ≥ st.maxSize ∧ (msGet st.store key).isSome = false
    · rw [st.set_evict now key value customTTL hc]
      have hkeynone : msGet st.store key = none := by
        cases hmg : msGet st.store key with
        | none => rfl
        | some w =>
          have := hc.2
          rw [hmg] at this
          exact Bool.noConfusion this
      cases hscan : scanOldest st.store none none with
      | none =>
        rw [st.evictLRU_eval_none hscan]
        exact (removed_msSet st.store key _).symm
      | some k1 =>
        by_cases hk1 : k1 = ""
        · rw [hk1] at hscan
          rw [st.evictLRU_eval_skip hscan]
          exact (removed_msSet st.store key _).symm
        · have hne : st.store ≠ [] := by
            intro hh
            rw [hh] at hscan
            simp [scanOldest] at hscan
          obtain ⟨k1x, e1, hscan2, hmem, hmin⟩ := scanOldest_min st.store hne
          rw [hscan] at hscan2
          have hk : k1 = k1x := Option.some.inj hscan2
          have he1 : msGet st.store k1 = some e1 := by
            rw [hk]
            exact msGet_of_mem_nodup hwf hmem
          rw [st.evictLRU_eval_del k1 e1 hscan hk1 he1]
          exact (removed_msSet_msErase _ hwf he1 hkeynone).symm
    · rw [st.set_no_evict now key value customTTL hc]
      exact (removed_msSet st.store key _).symm
  · rw [cleanupTick_spec st now hwf]
    exact (removed_cleanup st.store now hwf).symm

/-- Witness for the C3 theorem: a concrete two-entry store, checked at a time
when both entries are expired, covering delete, clear, expired get/has,
overwrite set and the sweep. -/
theorem onExpire_fires_once_per_removal_witness :
    (let stW := ((((defineState Nat (StateOptions.mk "w3" (some 2) (some 100))).set 0 "a" 1
        none).1).set 1 "b" 2 none).1
     (stW.delete "a").2.2 = removedEntries stW.store (stW.delete "a").2.1.store ∧
     (stW.clear).2 = removedEntries stW.store (stW.clear).1.store ∧
     (stW.get 150 "a").2.2 = removedEntries stW.store (stW.get 150 "a").2.1.store ∧
     (stW.has 150 "a").2.2 = removedEntries stW.store (stW.has 150 "a").2.1.store ∧
     (stW.set 150 "a" 7 none).2 =
       removedEntries stW.store (stW.set 150 "a" 7 none).1.store ∧
     (stW.cleanupTick 150).2 = removedEntries stW.store (stW.cleanupTick 150).1.store) :=
  onExpire_fires_once_per_removal _ 150 "a" 7 none (by decide)
